import Mathlib

/-!
Shallow embedding of the AutoAccAutoComplete repository
(`robot_keyword_extractor.py`, `log_html_parser.py`,
`robot_keyword_recommender.py`) and proofs about its behaviour.

Python dictionaries are modelled as insertion-ordered association lists,
Python sets as insertion-ordered duplicate-free lists, and `Counter`
objects as insertion-ordered association lists to `Nat`.  `float`
arithmetic on confidences is modelled exactly over `ℚ`.
-/

namespace RobotRec

/-- Python `dict.get` / `k in d` lookup on an insertion-ordered
association list. -/
def alistGet {α : Type} (l : List (String × α)) (k : String) : Option α :=
  match l with
  | [] => none
  | (k', v) :: t => if k' = k then some v else alistGet t k

/-- Python `d[k] = v`: overwrite in place if the key is present
(keeping its position), otherwise append at the end. -/
def alistSet {α : Type} (l : List (String × α)) (k : String) (v : α) :
    List (String × α) :=
  match l with
  | [] => [(k, v)]
  | (k', v') :: t => if k' = k then (k', v) :: t else (k', v') :: alistSet t k v

/-- Python `defaultdict` update `d[k] = f(d[k])` where a missing key first
receives the default value. -/
def alistModify {α : Type} (l : List (String × α)) (k : String) (dflt : α)
    (f : α → α) : List (String × α) :=
  match l with
  | [] => [(k, f dflt)]
  | (k', v') :: t =>
      if k' = k then (k', f v') :: t else (k', v') :: alistModify t k dflt f

/-- Python `set.add` on an insertion-ordered duplicate-free list. -/
def setAdd (s : List String) (x : String) : List String :=
  if x ∈ s then s else s ++ [x]

/-- Python `Counter` increment `c[k] += 1`. -/
def counterBump (c : List (String × Nat)) (k : String) : List (String × Nat) :=
  alistModify c k 0 (· + 1)

/-- `Counter[k]`: missing keys read as `0`. -/
def counterGet (c : List (String × Nat)) (k : String) : Nat :=
  (alistGet c k).getD 0

/-- `Counter.most_common(n)`: the entries stably sorted by count
descending (ties keep insertion order), truncated to the first `n`. -/
def mostCommon (c : List (String × Nat)) (n : Nat) : List (String × Nat) :=
  (c.insertionSort (fun a b => b.2 ≤ a.2)).take n

/-- One keyword record as produced by the extractors
(`robot_keyword_extractor.py` `keyword_info` dict). -/
structure KeywordInfo where
  name : String
  type : String
  library : String
  level : Nat
  parent : String
  test_name : String
  start_time : String
  end_time : String
  status : String
  arguments : List String
  return_values : List String
  execution_order : Nat
  deriving Repr, DecidableEq

/-- The five index structures plus the sequence log owned by
`KeywordPatternAnalyzer`. -/
structure AnalyzerState where
  keyword_sequences : List (List String)
  keyword_transitions : List (String × List (String × Nat))
  keyword_contexts : List (String × List String)
  library_keywords : List (String × List String)
  keyword_frequencies : List (String × Nat)
  keyword_libraries : List (String × String)
  deriving Repr, DecidableEq

/-- `KeywordPatternAnalyzer.__init__`: all structures empty. -/
def emptyAnalyzer : AnalyzerState :=
  { keyword_sequences := []
    keyword_transitions := []
    keyword_contexts := []
    library_keywords := []
    keyword_frequencies := []
    keyword_libraries := [] }

/-- The loop state of `analyze_output_file`: the analyzer plus the
in-progress sequence and the rolling context string. -/
structure IngestState where
  st : AnalyzerState
  current_sequence : List String
  current_context : String

/-- The body of the `for keyword in keywords` loop of
`KeywordPatternAnalyzer.analyze_output_file`. -/
def analyzeStep (s : IngestState) (keyword : KeywordInfo) : IngestState :=
  let keyword_name := keyword.name
  let library := if keyword.library = "" then "BuiltIn" else keyword.library
  let level := keyword.level
  let current_context :=
    if level = 0 then keyword_name
    else if level = 1 then s.current_context ++ "." ++ keyword_name
    else s.current_context
  let st := s.st
  let st := { st with
    keyword_libraries := alistSet st.keyword_libraries keyword_name library
    library_keywords :=
      alistModify st.library_keywords library [] (fun ks => setAdd ks keyword_name)
    keyword_frequencies :=
      alistModify st.keyword_frequencies keyword_name 0 (· + 1)
    keyword_contexts :=
      alistModify st.keyword_contexts keyword_name []
        (fun cs => setAdd cs current_context) }
  let st :=
    match s.current_sequence.getLast? with
    | some prev_keyword =>
        let kt := alistModify st.keyword_transitions prev_keyword
          [] (fun c => counterBump c keyword_name)
        { st with keyword_transitions := kt }
    | none => st
  let current_sequence := s.current_sequence ++ [keyword_name]
  if (keyword.type = "SETUP" ∨ keyword.type = "TEARDOWN") ∧ level = 0 then
    let st :=
      if 1 < current_sequence.length then
        { st with keyword_sequences := st.keyword_sequences ++ [current_sequence] }
      else st
    { st := st, current_sequence := [keyword_name], current_context := current_context }
  else
    { st := st, current_sequence := current_sequence, current_context := current_context }

/-- `KeywordPatternAnalyzer.analyze_output_file`, applied to the record
list returned by the extractor: fold the per-record update over the
records, then append the final in-progress sequence if non-empty. -/
def analyze_records (st : AnalyzerState) (keywords : List KeywordInfo) :
    AnalyzerState :=
  let fin := keywords.foldl analyzeStep
    { st := st, current_sequence := [], current_context := "" }
  if fin.current_sequence.isEmpty then fin.st
  else { fin.st with
    keyword_sequences := fin.st.keyword_sequences ++ [fin.current_sequence] }

/-- `KeywordRecommendation` dataclass.  Confidence is modelled exactly
over `ℚ`. -/
structure KeywordRecommendation where
  keyword : String
  library : String
  confidence : ℚ
  context : String
  usage_count : Nat
  next_keywords : List String
  deriving Repr, DecidableEq

/-- "`a` may come before `b`" in the final
`recommendations.sort(key=lambda x: (x.confidence, x.usage_count),
reverse=True)`: the `(confidence, usage_count)` key of `b` is
lexicographically at most that of `a`. -/
def recKeyGe (a b : KeywordRecommendation) : Prop :=
  b.confidence < a.confidence ∨
    (b.confidence = a.confidence ∧ b.usage_count ≤ a.usage_count)

instance : DecidableRel recKeyGe := fun a b => by
  unfold recKeyGe
  infer_instance

/-- Python `list.sort(key=lambda x: (x.confidence, x.usage_count),
reverse=True)`: a stable sort putting larger keys first (Python sorts
are stable, and a stable sort is determined by its total preorder, so
insertion sort models it exactly). -/
def sortRecs (l : List KeywordRecommendation) : List KeywordRecommendation :=
  l.insertionSort recKeyGe

/-- The recommendation built for one entry of
`transitions.most_common(max_recommendations)` in the direct branch of
`get_recommendations`. -/
def mkDirectRec (st : AnalyzerState) (context : String) (total_count : Nat)
    (p : String × Nat) : KeywordRecommendation :=
  { keyword := p.1
    library := (alistGet st.keyword_libraries p.1).getD "BuiltIn"
    confidence := (p.2 : ℚ) / (total_count : ℚ)
    context := context
    usage_count := p.2
    next_keywords :=
      match alistGet st.keyword_transitions p.1 with
      | some t2 => (mostCommon t2 3).map (·.1)
      | none => [] }

/-- The direct-transition branch of `get_recommendations`. -/
def directRecs (st : AnalyzerState) (current_keyword context : String)
    (max_recommendations : Nat) : List KeywordRecommendation :=
  match alistGet st.keyword_transitions current_keyword with
  | some transitions =>
      (mostCommon transitions max_recommendations).map
        (mkDirectRec st context ((transitions.map (·.2)).sum))
  | none => []

/-- The recommendation built for one same-library keyword in the
fallback branch of `get_recommendations`. -/
def mkFallbackRec (st : AnalyzerState) (current_library context kw : String) :
    KeywordRecommendation :=
  { keyword := kw
    library := current_library
    confidence := (1 : ℚ) / 10
    context := context
    usage_count := counterGet st.keyword_frequencies kw
    next_keywords := [] }

/-- The library-fallback branch of `get_recommendations`. -/
def libraryFallbackRecs (st : AnalyzerState)
    (current_keyword context : String) : List KeywordRecommendation :=
  match alistGet st.keyword_libraries current_keyword with
  | some current_library =>
      ((alistGet st.library_keywords current_library).getD []).filterMap
        (fun kw =>
          if kw ≠ current_keyword then
            some (mkFallbackRec st current_library context kw)
          else none)
  | none => []

/-- `KeywordPatternAnalyzer.get_recommendations`: direct transitions if
any, else the library fallback, then the final sort and truncation. -/
def get_recommendations (st : AnalyzerState) (current_keyword : String)
    (context : String) (max_recommendations : Nat) :
    List KeywordRecommendation :=
  let direct := directRecs st current_keyword context max_recommendations
  let recommendations :=
    if direct.isEmpty then libraryFallbackRecs st current_keyword context
    else direct
  (sortRecs recommendations).take max_recommendations

/-- One autocomplete suggestion dict. -/
structure Suggestion where
  keyword : String
  library : String
  frequency : Nat
  contexts : List String
  deriving Repr, DecidableEq

/-- Python `str.lower()`, character by character. -/
def lowerStr (s : String) : String := String.mk (s.data.map Char.toLower)

/-- Python substring test `n in h` on character lists. -/
def charsContain (h n : List Char) : Bool :=
  match h with
  | [] => n.isEmpty
  | c :: t => if n.isPrefixOf (c :: t) then true else charsContain t n

/-- Python substring test `needle in hay` on strings. -/
def strContains (hay needle : String) : Bool :=
  charsContain hay.data needle.data

/-- "`a` may come before `b`" in the autocomplete
`suggestions.sort(key=lambda x: (x.frequency, len(x.keyword)),
reverse=True)`: the `(frequency, length)` key of `b` is
lexicographically at most that of `a`. -/
def suggGe (a b : Suggestion) : Prop :=
  b.frequency < a.frequency ∨
    (b.frequency = a.frequency ∧ b.keyword.length ≤ a.keyword.length)

instance : DecidableRel suggGe := fun a b => by
  unfold suggGe
  infer_instance

/-- The suggestion built (or skipped) for one `(keyword, library)`
entry of `keyword_libraries` in the autocomplete loop: skip entries of
other libraries when a filter is given, then match the lowered partial
string as a substring of the lowered keyword name. -/
def autocompleteEntry (st : AnalyzerState) (partial_lower : String)
    (library_filter : Option String) (p : String × String) :
    Option Suggestion :=
  let skip : Bool :=
    match library_filter with
    | some f => decide (p.2 ≠ f)
    | none => false
  if skip then none
  else if strContains (lowerStr p.1) partial_lower then
    some { keyword := p.1
           library := p.2
           frequency := counterGet st.keyword_frequencies p.1
           contexts := (alistGet st.keyword_contexts p.1).getD [] }
  else none

/-- `KeywordPatternAnalyzer.get_autocomplete_suggestions`.  A `none`
filter models Python's falsy (absent or empty) `library_filter`. -/
def get_autocomplete_suggestions (st : AnalyzerState) (partial_keyword : String)
    (library_filter : Option String) : List Suggestion :=
  let partial_lower := lowerStr partial_keyword
  let suggestions := st.keyword_libraries.filterMap
    (autocompleteEntry st partial_lower library_filter)
  (suggestions.insertionSort suggGe).take 20

/-- `max(sequence.index(kw) for kw in context_keywords)`: the largest
first-occurrence index of the given keywords. -/
def maxFirstIndex (sequence : List String) (context_keywords : List String) :
    Nat :=
  (context_keywords.map (fun kw => sequence.findIdx (· == kw))).foldl max 0

/-- `KeywordPatternAnalyzer.get_context_recommendations`. -/
def get_context_recommendations (st : AnalyzerState)
    (context_keywords : List String) (max_recommendations : Nat) :
    List KeywordRecommendation :=
  if context_keywords.isEmpty then []
  else
    let matching_sequences := st.keyword_sequences.filter
      (fun sequence => context_keywords.all (fun kw => sequence.contains kw))
    if matching_sequences.isEmpty then []
    else
      let next_keyword_counts := matching_sequences.foldl (fun counts sequence =>
        let last_context_pos := maxFirstIndex sequence context_keywords
        match sequence.get? (last_context_pos + 1) with
        | some next_keyword => counterBump counts next_keyword
        | none => counts) []
      let total_count : Nat := (next_keyword_counts.map (·.2)).sum
      (mostCommon next_keyword_counts max_recommendations).map (fun p =>
        { keyword := p.1
          library := (alistGet st.keyword_libraries p.1).getD "BuiltIn"
          confidence := (p.2 : ℚ) / (total_count : ℚ)
          context := String.intercalate " -> " context_keywords
          usage_count := p.2
          next_keywords := [] })

/-- Per-library statistics entry of
`RobotKeywordRecommender.get_library_statistics`. -/
structure LibraryStat where
  keyword_count : Nat
  total_usage : Nat
  top_keywords : List (String × Nat)
  deriving Repr, DecidableEq

/-- `RobotKeywordRecommender.get_library_statistics`. -/
def get_library_statistics (st : AnalyzerState) : List (String × LibraryStat) :=
  st.library_keywords.map (fun p =>
    let usage := p.2.map (fun kw => (kw, counterGet st.keyword_frequencies kw))
    (p.1, { keyword_count := p.2.length
            total_usage := (usage.map (·.2)).sum
            top_keywords := mostCommon usage 5 }))

/-- The `model_data` dict written by `save_model` and read back by
`load_model` (pickle round-trips it unchanged). -/
structure ModelData where
  keyword_transitions : List (String × List (String × Nat))
  keyword_contexts : List (String × List String)
  library_keywords : List (String × List String)
  keyword_frequencies : List (String × Nat)
  keyword_libraries : List (String × String)
  keyword_sequences : List (List String)
  deriving Repr, DecidableEq

/-- `KeywordPatternAnalyzer.save_model`: the analyzer structures are
copied into the `model_data` dict (`dict(...)` and set-to-list
conversions are identities on the association-list model). -/
def save_model (st : AnalyzerState) : ModelData :=
  { keyword_transitions := st.keyword_transitions
    keyword_contexts := st.keyword_contexts
    library_keywords := st.library_keywords
    keyword_frequencies := st.keyword_frequencies
    keyword_libraries := st.keyword_libraries
    keyword_sequences := st.keyword_sequences }

/-- `KeywordPatternAnalyzer.load_model`: the analyzer structures are
rebuilt from the `model_data` dict. -/
def load_model (md : ModelData) : AnalyzerState :=
  { keyword_sequences := md.keyword_sequences
    keyword_transitions := md.keyword_transitions
    keyword_contexts := md.keyword_contexts
    library_keywords := md.library_keywords
    keyword_frequencies := md.keyword_frequencies
    keyword_libraries := md.keyword_libraries }

/-- An `xml.etree.ElementTree` element: tag, attributes, text content,
children in document order. -/
inductive Element where
  | mk (tag : String) (attrs : List (String × String)) (text : String)
      (children : List Element)

/-- The element's tag. -/
def Element.tag : Element → String
  | .mk t _ _ _ => t

/-- The element's attribute list. -/
def Element.attrs : Element → List (String × String)
  | .mk _ a _ _ => a

/-- The element's text (Python `elem.text or ''`). -/
def Element.text : Element → String
  | .mk _ _ x _ => x

/-- The element's direct children. -/
def Element.children : Element → List Element
  | .mk _ _ _ cs => cs

/-- Python `element.get(key, default)`. -/
def Element.getAttr (e : Element) (k dflt : String) : String :=
  (alistGet e.attrs k).getD dflt

mutual
/-- All proper descendants of an element in document (preorder)
order, as enumerated by an ElementTree `.//` search. -/
def Element.descendants : Element → List Element
  | .mk _ _ _ cs => descendantsList cs
/-- Descendant enumeration over a child list. -/
def descendantsList : List Element → List Element
  | [] => []
  | c :: cs => c :: Element.descendants c ++ descendantsList cs
end

/-- Python `element.findall('.//t')`: all descendants with the given
tag, in document order. -/
def findallDesc (e : Element) (t : String) : List Element :=
  e.descendants.filter (fun c => c.tag == t)

mutual
/-- `RobotKeywordExtractor.extract_keywords_recursive`, written as a
function from the accumulated record list to the extended record list
(`self.keywords` is the accumulator; `execution_order` is
`len(self.keywords) + 1` at append time). -/
def extractKwRec (e : Element) (level : Nat) (parent_name test_name : String)
    (ks : List KeywordInfo) : List KeywordInfo :=
  match e with
  | .mk tag attrs _ children =>
    if tag = "kw" then
      let keyword_name := (alistGet attrs "name").getD "Unknown"
      let keyword_type := (alistGet attrs "type").getD "keyword"
      let keyword_library := (alistGet attrs "library").getD ""
      let start_time := (alistGet attrs "starttime").getD ""
      let end_time := (alistGet attrs "endtime").getD ""
      let status :=
        match children.find? (fun c => c.tag == "status") with
        | some se => se.getAttr "status" "UNKNOWN"
        | none => "UNKNOWN"
      let arguments :=
        match children.find? (fun c => c.tag == "arguments") with
        | some ae => (ae.children.filter (fun c => c.tag == "arg")).map Element.text
        | none => []
      let return_values :=
        match children.find? (fun c => c.tag == "return") with
        | some re => (re.children.filter (fun c => c.tag == "return")).map Element.text
        | none => []
      let keyword_info : KeywordInfo :=
        { name := keyword_name
          type := keyword_type
          library := keyword_library
          level := level
          parent := parent_name
          test_name := test_name
          start_time := start_time
          end_time := end_time
          status := status
          arguments := arguments
          return_values := return_values
          execution_order := ks.length + 1 }
      let current_parent :=
        if parent_name ≠ "" then parent_name ++ "." ++ keyword_name
        else keyword_name
      extractKwRecList children (level + 1) current_parent test_name
        (ks ++ [keyword_info])
    else if tag = "test" then
      let tn := (alistGet attrs "name").getD "Unknown Test"
      extractKwRecList children level tn tn ks
    else
      extractKwRecList children level parent_name test_name ks
/-- The `for child in element` loop of `extract_keywords_recursive`. -/
def extractKwRecList (es : List Element) (level : Nat)
    (parent_name test_name : String) (ks : List KeywordInfo) :
    List KeywordInfo :=
  match es with
  | [] => ks
  | e :: t =>
      extractKwRecList t level parent_name test_name
        (extractKwRec e level parent_name test_name ks)
end

/-- Python exceptions relevant to the training loop: `sys.exit(1)`
raises `SystemExit` (a `BaseException`), everything the `except
Exception` clause can catch is `exception`. -/
inductive PyErr where
  | systemExit (code : Nat)
  | exception (msg : String)
  deriving Repr, DecidableEq

/-- The filesystem as seen by `parse_xml`: filename to parse outcome;
`none` is a missing or unparseable file. -/
def FileSys : Type := List (String × Option Element)

/-- `RobotKeywordExtractor.parse_xml`: a `ParseError`, a missing file,
or any other read failure is printed and then `sys.exit(1)` is called,
raising `SystemExit`. -/
def parse_xml (files : FileSys) (output_file : String) :
    Except PyErr Element :=
  match alistGet files output_file with
  | some (some root) => .ok root
  | some none => .error (.systemExit 1)
  | none => .error (.systemExit 1)

/-- `RobotKeywordExtractor.extract_keywords` given the parsed root:
locate the `robot` element (or `sys.exit(1)` when absent) and extract
from every `.//suite` descendant in document order. -/
def extract_keywords_from_root (root : Element) :
    Except PyErr (List KeywordInfo) :=
  let robot_elem? :=
    if root.tag = "robot" then some root
    else (root.descendants.filter (fun c => c.tag == "robot")).head?
  match robot_elem? with
  | none => .error (.systemExit 1)
  | some robot_elem =>
      .ok ((findallDesc robot_elem "suite").foldl
        (fun ks suite => extractKwRec suite 0 "" "" ks) [])

/-- `KeywordPatternAnalyzer.analyze_output_file` end to end: parse the
file, extract the records, ingest them. -/
def analyze_output_file (files : FileSys) (st : AnalyzerState)
    (output_file : String) : Except PyErr AnalyzerState :=
  match parse_xml files output_file with
  | .error e => .error e
  | .ok root =>
      match extract_keywords_from_root root with
      | .error e => .error e
      | .ok keywords => .ok (analyze_records st keywords)

/-- The `for output_file in output_files` loop of
`RobotKeywordRecommender.train_on_output_files`: `except Exception`
catches `exception` failures and proceeds; `SystemExit` is a
`BaseException` and propagates, aborting the loop. -/
def trainLoop (files : FileSys) :
    List String → AnalyzerState → Except PyErr AnalyzerState
  | [], st => .ok st
  | f :: rest, st =>
      match analyze_output_file files st f with
      | .ok st' => trainLoop files rest st'
      | .error (.exception _) => trainLoop files rest st
      | .error (.systemExit c) => .error (.systemExit c)

/-- `RobotKeywordRecommender.train_on_output_files` starting from the
given analyzer state. -/
def train_on_output_files (files : FileSys) (output_files : List String)
    (st : AnalyzerState) : Except PyErr AnalyzerState :=
  trainLoop files output_files st

/-- Split a character list at the first `'>'`: the characters before it
and the characters after it. -/
def splitAtGt : List Char → Option (List Char × List Char)
  | [] => none
  | c :: t =>
      if c = '>' then some ([], t)
      else (splitAtGt t).map (fun p => (c :: p.1, p.2))

theorem splitAtGt_length : ∀ (l b r : List Char),
    splitAtGt l = some (b, r) → r.length < l.length := by
  intro l
  induction l with
  | nil => intro b r h; simp [splitAtGt] at h
  | cons c t ih =>
      intro b r h
      simp only [splitAtGt] at h
      split at h
      · simp only [Option.some.injEq, Prod.mk.injEq] at h
        obtain ⟨hb, hr⟩ := h
        subst hr
        simp only [List.length_cons]
        omega
      · cases hs : splitAtGt t with
        | none => rw [hs] at h; simp at h
        | some p =>
            rw [hs] at h
            simp only [Option.map_some', Option.some.injEq, Prod.mk.injEq] at h
            have := ih p.1 p.2 (by rw [hs])
            obtain ⟨hb, hr⟩ := h
            subst hr
            simp only [List.length_cons]
            omega

/-- Worker for `stripTags`; the fuel starts at the character count and
every step consumes at least one character, so it never runs out. -/
def stripTagsGo : Nat → List Char → List Char
  | 0, cs => cs
  | _ + 1, [] => []
  | fuel + 1, c :: t =>
      if c = '<' then
        match splitAtGt t with
        | some (body, rest) =>
            if body.isEmpty then c :: stripTagsGo fuel t
            else stripTagsGo fuel rest
        | none => c :: stripTagsGo fuel t
      else c :: stripTagsGo fuel t

/-- Python `re.sub(r'<[^>]+>', '', s)` on a character list: each
leftmost non-overlapping `<`…`>` span with a non-empty body is
removed. -/
def stripTags (cs : List Char) : List Char :=
  stripTagsGo cs.length cs

/-- Python `str.strip()`. -/
def trimChars (cs : List Char) : List Char :=
  ((cs.dropWhile Char.isWhitespace).reverse.dropWhile Char.isWhitespace).reverse

/-- One iteration of the `for match in matches` loop of
`extract_from_html_tables`: clean the matched text, and if a non-empty
name remains, append a record reading level and parent from the tops of
the (never-modified) stacks. -/
def htmlRowStep (level_stack : List Nat) (parent_stack : List String)
    (acc : List KeywordInfo × Nat) (m : String) : List KeywordInfo × Nat :=
  let keyword_name := String.mk (trimChars (stripTags m.data))
  if keyword_name ≠ "" then
    let eo := acc.2 + 1
    (acc.1 ++ [{ name := keyword_name
                 type := "keyword"
                 library := ""
                 level := level_stack.getLastD 0
                 parent := parent_stack.getLastD ""
                 test_name := ""
                 start_time := ""
                 end_time := ""
                 status := "UNKNOWN"
                 arguments := []
                 return_values := []
                 execution_order := eo }], eo)
  else acc

/-- `LogHTMLExtractor.extract_from_html_tables`, modelled over the list
of group-1 strings produced by the keyword-row regular-expression scan
(every input document yields some such list of raw match texts).  The
`level_stack` and `parent_stack` are initialised to `[0]` and `['']`
and never pushed or popped.  Returns the appended records and the final
`execution_order` counter. -/
def extract_from_html_tables (rowMatches : List String)
    (execution_order : Nat) : List KeywordInfo × Nat :=
  let level_stack : List Nat := [0]
  let parent_stack : List String := [""]
  rowMatches.foldl (htmlRowStep level_stack parent_stack) ([], execution_order)

/-! ## Concrete inputs used by several claims -/

/-- A record carrying the fields the analyzer reads; the remaining
fields are fixed defaults. -/
def mkRec (name ty lib : String) (level : Nat) (parent : String) :
    KeywordInfo :=
  { name := name
    type := ty
    library := lib
    level := level
    parent := parent
    test_name := ""
    start_time := ""
    end_time := ""
    status := "PASS"
    arguments := []
    return_values := []
    execution_order := 0 }

/-- The transition count stored for `a → b`. -/
def transCount (st : AnalyzerState) (a b : String) : Nat :=
  counterGet ((alistGet st.keyword_transitions a).getD []) b

/-- The record list of the C1 scenario: top-level setup keyword A,
nested keyword B inside A, top-level keyword C, top-level teardown
keyword D. -/
def c1_records : List KeywordInfo :=
  [mkRec "A" "SETUP" "" 0 "", mkRec "B" "keyword" "" 1 "A",
   mkRec "C" "keyword" "" 0 "", mkRec "D" "TEARDOWN" "" 0 ""]

/-- C1: counterexample.  Ingesting the scenario record list records a
transition count of 0 for A → C, not 1 as claimed: the nested level-1
keyword B is appended to the in-progress sequence like any other
record, so the observed transitions out of A go to B. -/
theorem c1_counterexample :
    transCount (analyze_records emptyAnalyzer c1_records) "A" "C" = 0 ∧
    transCount (analyze_records emptyAnalyzer c1_records) "A" "C" ≠ 1 := by
  decide

/-- C1 (amended): ingesting the scenario record list closes the
sequence [A, B, C, D] at the teardown boundary at D and leaves the
final sequence [D], records transition counts A→B = 1, B→C = 1 and
C→D = 1 (and A→C = 0, because the nested keyword B enters the
transition chain), and records B as a level-1 keyword with parent
path "A" and context "A.B". -/
theorem c1_scenario :
    (analyze_records emptyAnalyzer c1_records).keyword_sequences
        = [["A", "B", "C", "D"], ["D"]] ∧
    transCount (analyze_records emptyAnalyzer c1_records) "A" "B" = 1 ∧
    transCount (analyze_records emptyAnalyzer c1_records) "B" "C" = 1 ∧
    transCount (analyze_records emptyAnalyzer c1_records) "C" "D" = 1 ∧
    transCount (analyze_records emptyAnalyzer c1_records) "A" "C" = 0 ∧
    alistGet (analyze_records emptyAnalyzer c1_records).keyword_contexts "B"
        = some ["A.B"] ∧
    c1_records.get? 1 = some (mkRec "B" "keyword" "" 1 "A") := by
  decide

/-- A robot tree whose suite nests another suite containing keyword P
with nested keyword C. -/
def nestedSuiteTree : Element :=
  .mk "robot" [] "" [
    .mk "suite" [("name", "S1")] "" [
      .mk "suite" [("name", "S2")] "" [
        .mk "kw" [("name", "P")] "" [
          .mk "kw" [("name", "C")] "" []]]]]

/-- A file system with one unparseable log followed by one good log. -/
def badFiles : FileSys :=
  [("bad.xml", none), ("good.xml", some nestedSuiteTree)]

/-- C3: the code contradicts the claim.  `parse_xml` handles a parse
error or missing file by calling `sys.exit(1)`, which raises
`SystemExit` — a `BaseException` that the `except Exception` clause of
`train_on_output_files` does not catch.  Training on an unparseable
file followed by a good file therefore aborts with `SystemExit` and
never processes the good file, although training on the good file
alone would have produced a non-empty model. -/
theorem c3_bad_file_aborts_training :
    train_on_output_files badFiles ["bad.xml", "good.xml"] emptyAnalyzer
        = .error (.systemExit 1) ∧
    ∃ st, train_on_output_files badFiles ["good.xml"] emptyAnalyzer = .ok st ∧
      st.keyword_frequencies ≠ [] := by
  constructor
  · rfl
  · exact ⟨_, rfl, by decide⟩

/-- C5: saving the model and loading it into a fresh analyzer yields a
state whose direct-transition and library-fallback queries
(`get_recommendations`), context queries, autocomplete queries and
library statistics agree with the original analyzer on every input. -/
theorem c5_save_load_roundtrip (st : AnalyzerState) (k ctx : String)
    (n : Nat) (p : String) (f : Option String) (kws : List String)
    (m : Nat) :
    get_recommendations (load_model (save_model st)) k ctx n
        = get_recommendations st k ctx n ∧
    get_autocomplete_suggestions (load_model (save_model st)) p f
        = get_autocomplete_suggestions st p f ∧
    get_context_recommendations (load_model (save_model st)) kws m
        = get_context_recommendations st kws m ∧
    get_library_statistics (load_model (save_model st))
        = get_library_statistics st := by
  have h : load_model (save_model st) = st := rfl
  rw [h]
  exact ⟨rfl, rfl, rfl, rfl⟩

/-- C6: counterexample.  After observing keyword K under library L1 and
then under library L2, the keyword → library map points at L2, but K is
still present in the library index entry of L1 (the `library_keywords`
sets are add-only; nothing removes K from L1), so K does not appear
"only under L2". -/
theorem c6_counterexample :
    alistGet (analyze_records emptyAnalyzer
        [mkRec "K" "keyword" "L1" 0 "", mkRec "K" "keyword" "L2" 0 ""]).keyword_libraries
        "K" = some "L2" ∧
    "K" ∈ (alistGet (analyze_records emptyAnalyzer
        [mkRec "K" "keyword" "L1" 0 "", mkRec "K" "keyword" "L2" 0 ""]).library_keywords
        "L1").getD [] ∧
    ("L1" : String) ≠ "L2" := by
  decide

/-- C6 (amended): after training observes the same keyword name first
under library L1 and later under library L2 (both non-empty and
distinct), the keyword → library map holds L2 (last writer wins), while
the library index keeps the keyword under both L1 and L2. -/
theorem c6_last_writer_wins (k l1 l2 : String) (h1 : l1 ≠ "")
    (h2 : l2 ≠ "") (h12 : l1 ≠ l2) :
    alistGet (analyze_records emptyAnalyzer
        [mkRec k "keyword" l1 0 "", mkRec k "keyword" l2 0 ""]).keyword_libraries
        k = some l2 ∧
    k ∈ (alistGet (analyze_records emptyAnalyzer
        [mkRec k "keyword" l1 0 "", mkRec k "keyword" l2 0 ""]).library_keywords
        l1).getD [] ∧
    k ∈ (alistGet (analyze_records emptyAnalyzer
        [mkRec k "keyword" l1 0 "", mkRec k "keyword" l2 0 ""]).library_keywords
        l2).getD [] := by
  simp only [analyze_records, analyzeStep, mkRec, List.foldl_cons, List.foldl_nil,
    alistSet, alistModify, setAdd, alistGet, counterBump, h1, h2, h12,
    if_false, if_true, List.getLast?]
  simp [h1, h2, h12, Ne.symm h12, alistGet, alistModify, setAdd]

/-- C6 witness: the amended statement at K, L1, L2. -/
theorem c6_last_writer_wins_witness :
    ("L1" : String) ≠ "" ∧ ("L2" : String) ≠ "" ∧ ("L1" : String) ≠ "L2" ∧
    (alistGet (analyze_records emptyAnalyzer
        [mkRec "K" "keyword" "L1" 0 "", mkRec "K" "keyword" "L2" 0 ""]).keyword_libraries
        "K" = some "L2" ∧
    "K" ∈ (alistGet (analyze_records emptyAnalyzer
        [mkRec "K" "keyword" "L1" 0 "", mkRec "K" "keyword" "L2" 0 ""]).library_keywords
        "L1").getD [] ∧
    "K" ∈ (alistGet (analyze_records emptyAnalyzer
        [mkRec "K" "keyword" "L1" 0 "", mkRec "K" "keyword" "L2" 0 ""]).library_keywords
        "L2").getD []) :=
  ⟨by decide, by decide, by decide,
   c6_last_writer_wins "K" "L1" "L2" (by decide) (by decide) (by decide)⟩

/-- Any record reachable in the accumulator of the markup-row fold is
either already in the starting accumulator or carries the fallback
default fields. -/
theorem html_fold_mem (rowMatches : List String) :
    ∀ (acc : List KeywordInfo × Nat) (r : KeywordInfo),
      r ∈ (rowMatches.foldl (htmlRowStep [0] [""]) acc).1 →
      r ∈ acc.1 ∨
        (r.level = 0 ∧ r.parent = "" ∧ r.library = "" ∧
         r.status = "UNKNOWN" ∧ r.start_time = "" ∧ r.end_time = "" ∧
         r.arguments = [] ∧ r.return_values = []) := by
  induction rowMatches with
  | nil => intro acc r h; exact Or.inl h
  | cons m t ih =>
      intro acc r h
      rcases ih (htmlRowStep [0] [""] acc m) r h with h' | hp
      · unfold htmlRowStep at h'
        simp only [ne_eq] at h'
        split at h'
        · rcases List.mem_append.mp h' with ha | hb
          · exact Or.inl ha
          · right
            rcases List.mem_singleton.mp hb with rfl
            exact ⟨rfl, rfl, rfl, rfl, rfl, rfl, rfl, rfl⟩
        · exact Or.inl h'
      · exact Or.inr hp

/-- C10: every record produced by the final markup-row fallback
strategy (`extract_from_html_tables`) has nesting level 0 and empty
parent path, empty library, status UNKNOWN, empty timestamps, and
empty argument and return lists, for every input document (every list
of keyword-row matches) and starting counter. -/
theorem c10_markup_fallback_defaults (rowMatches : List String) (eo : Nat)
    (r : KeywordInfo)
    (hr : r ∈ (extract_from_html_tables rowMatches eo).1) :
    r.level = 0 ∧ r.parent = "" ∧ r.library = "" ∧ r.status = "UNKNOWN" ∧
    r.start_time = "" ∧ r.end_time = "" ∧ r.arguments = [] ∧
    r.return_values = [] := by
  rcases html_fold_mem rowMatches ([], eo) r hr with h | h
  · exact absurd h (List.not_mem_nil r)
  · exact h

/-- The record produced by the fallback for the row text
`<b>Click</b>`. -/
def c10_rec : KeywordInfo :=
  { name := "Click"
    type := "keyword"
    library := ""
    level := 0
    parent := ""
    test_name := ""
    start_time := ""
    end_time := ""
    status := "UNKNOWN"
    arguments := []
    return_values := []
    execution_order := 1 }

/-- C10 witness: the fallback applied to one concrete keyword-row
match. -/
theorem c10_markup_fallback_defaults_witness :
    c10_rec ∈ (extract_from_html_tables ["<b>Click</b>"] 0).1 ∧
    (c10_rec.level = 0 ∧ c10_rec.parent = "" ∧ c10_rec.library = "" ∧
     c10_rec.status = "UNKNOWN" ∧ c10_rec.start_time = "" ∧
     c10_rec.end_time = "" ∧ c10_rec.arguments = [] ∧
     c10_rec.return_values = []) :=
  ⟨by decide, c10_markup_fallback_defaults ["<b>Click</b>"] 0 c10_rec (by decide)⟩

/-- Shifting a keyword-record block under a new front record: if the
front record carries order `acc.length + 1` and the block's orders run
consecutively after `acc ++ [info]`, the combined block's orders run
consecutively after `acc`. -/
theorem kwBranch_orders (children : List Element) (level : Nat)
    (cp tn : String) (acc : List KeywordInfo) (info : KeywordInfo)
    (hinfo : info.execution_order = acc.length + 1)
    (H : ∃ new2, extractKwRecList children level cp tn (acc ++ [info])
          = (acc ++ [info]) ++ new2 ∧
        new2.map (fun r => r.execution_order)
          = List.range' ((acc ++ [info]).length + 1) new2.length) :
    ∃ new, extractKwRecList children level cp tn (acc ++ [info])
        = acc ++ new ∧
      new.map (fun r => r.execution_order)
        = List.range' (acc.length + 1) new.length := by
  obtain ⟨new2, heq, ho⟩ := H
  refine ⟨info :: new2, ?_, ?_⟩
  · rw [heq, List.append_assoc]
    rfl
  · simp only [List.map_cons, List.length_cons, hinfo]
    rw [ho]
    simp only [List.length_append, List.length_cons, List.length_nil]
    rw [List.range'_succ]

mutual
/-- One traversal of an element appends records whose execution orders
run consecutively from the accumulator length plus one. -/
theorem extractKwRec_orders : ∀ (e : Element) (level : Nat)
    (pn tn : String) (acc : List KeywordInfo),
    ∃ new, extractKwRec e level pn tn acc = acc ++ new ∧
      new.map (fun r => r.execution_order)
        = List.range' (acc.length + 1) new.length
  | .mk tag attrs x children, level, pn, tn, acc => by
      simp only [extractKwRec]
      split
      · exact kwBranch_orders children (level + 1) _ tn acc _ rfl
          (extractKwRecList_orders children (level + 1) _ tn (acc ++ [_]))
      · split
        · exact extractKwRecList_orders children level _ _ acc
        · exact extractKwRecList_orders children level pn tn acc
/-- One traversal of an element list appends records whose execution
orders run consecutively from the accumulator length plus one. -/
theorem extractKwRecList_orders : ∀ (es : List Element) (level : Nat)
    (pn tn : String) (acc : List KeywordInfo),
    ∃ new, extractKwRecList es level pn tn acc = acc ++ new ∧
      new.map (fun r => r.execution_order)
        = List.range' (acc.length + 1) new.length
  | [], _, _, _, acc => by
      refine ⟨[], ?_, rfl⟩
      simp [extractKwRecList]
  | e :: t, level, pn, tn, acc => by
      simp only [extractKwRecList]
      obtain ⟨n1, e1, o1⟩ := extractKwRec_orders e level pn tn acc
      obtain ⟨n2, e2, o2⟩ := extractKwRecList_orders t level pn tn (acc ++ n1)
      rw [e1]
      refine ⟨n1 ++ n2, ?_, ?_⟩
      · rw [e2, List.append_assoc]
      · simp only [List.map_append, o1, o2, List.length_append]
        have h3 : acc.length + n1.length + 1 = (acc.length + 1) + n1.length := by
          omega
        rw [h3, List.range'_append_1]
        congr 1
        omega
end

/-- The suite fold of `extract_keywords` appends records whose
execution orders run consecutively from the accumulator length plus
one. -/
theorem extract_fold_orders (suites : List Element) :
    ∀ (acc : List KeywordInfo),
    ∃ new, suites.foldl (fun ks suite => extractKwRec suite 0 "" "" ks) acc
        = acc ++ new ∧
      new.map (fun r => r.execution_order)
        = List.range' (acc.length + 1) new.length := by
  induction suites with
  | nil => intro acc; exact ⟨[], by simp, rfl⟩
  | cons s t ih =>
      intro acc
      simp only [List.foldl_cons]
      obtain ⟨n1, e1, o1⟩ := extractKwRec_orders s 0 "" "" acc
      obtain ⟨n2, e2, o2⟩ := ih (acc ++ n1)
      rw [e1]
      refine ⟨n1 ++ n2, ?_, ?_⟩
      · rw [e2, List.append_assoc]
      · simp only [List.map_append, o1, o2, List.length_append]
        have h3 : acc.length + n1.length + 1 = (acc.length + 1) + n1.length := by
          omega
        rw [h3, List.range'_append_1]
        congr 1
        omega

/-- In the keyword branch of the traversal, the keyword's own record
(appended first, with order `acc.length + 1`) carries a smaller order
than every record produced from its children's subtrees in the same
traversal. -/
theorem kw_head_orders (children : List Element) (level : Nat)
    (cp tn : String) (acc : List KeywordInfo) (info : KeywordInfo)
    (hinfo : info.execution_order = acc.length + 1) :
    ∃ r rest, extractKwRecList children level cp tn (acc ++ [info])
        = acc ++ r :: rest ∧
      r.execution_order = acc.length + 1 ∧
      ∀ r' ∈ rest, r.execution_order < r'.execution_order := by
  obtain ⟨new2, heq, ho⟩ :=
    extractKwRecList_orders children level cp tn (acc ++ [info])
  refine ⟨info, new2, ?_, hinfo, ?_⟩
  · rw [heq, List.append_assoc]
    rfl
  · intro r' hr'
    have hm : r'.execution_order ∈ new2.map (fun r => r.execution_order) :=
      List.mem_map_of_mem _ hr'
    rw [ho] at hm
    obtain ⟨j, hj, hval⟩ := List.mem_range'.mp hm
    simp only [List.length_append, List.length_cons, List.length_nil] at hval
    omega

/-- C8 (amended): within one extraction run, execution-order values are
unique, 1-based and strictly increasing with append order (the i-th
record carries order i + 1); and within a single traversal of a keyword
element, the element's own record is appended first and carries a
smaller order than every record produced from its descendants in that
traversal.  Across traversals the parent/descendant comparison can fail
because `findall('.//suite')` re-traverses nested suites (see the
counterexample). -/
theorem c8_execution_orders (root : Element) (ks : List KeywordInfo)
    (h : extract_keywords_from_root root = .ok ks) :
    (∀ i (hi : i < ks.length), (ks.get ⟨i, hi⟩).execution_order = i + 1) ∧
    (∀ (e : Element) (level : Nat) (pn tn : String)
        (acc : List KeywordInfo), e.tag = "kw" →
      ∃ r rest, extractKwRec e level pn tn acc = acc ++ r :: rest ∧
        r.execution_order = acc.length + 1 ∧
        ∀ r' ∈ rest, r.execution_order < r'.execution_order) := by
  constructor
  · simp only [extract_keywords_from_root] at h
    cases hr : (if root.tag = "robot" then some root
        else (root.descendants.filter (fun c => c.tag == "robot")).head?) with
    | none =>
        rw [hr] at h
        exact absurd h (by simp)
    | some rb =>
        rw [hr] at h
        simp only [Except.ok.injEq] at h
        obtain ⟨new, e1, o1⟩ :=
          extract_fold_orders (findallDesc rb "suite") ([] : List KeywordInfo)
        rw [e1, List.nil_append] at h
        subst h
        intro i hi
        have h2 := congrArg (fun l => l[i]?) o1
        simp only [List.getElem?_map] at h2
        rw [List.getElem?_eq_getElem hi,
          List.getElem?_eq_getElem (by simpa using hi)] at h2
        simp only [Option.map_some', Option.some.injEq,
          List.getElem_range', List.length_nil] at h2
        have h3 : new.get ⟨i, hi⟩ = new[i] := rfl
        rw [h3]
        omega
  · intro e level pn tn acc he
    obtain ⟨tag, attrs, x, children⟩ := e
    simp only [Element.tag] at he
    subst he
    simp only [extractKwRec, if_pos]
    exact kw_head_orders children (level + 1) _ tn acc _ rfl

/-- The record list extracted from `nestedSuiteTree`: the nested suite
S2 is visited both through the traversal of S1 and directly by the
`.//suite` scan, so keywords P and C are each extracted twice. -/
def c8_ks : List KeywordInfo :=
  [{ name := "P", type := "keyword", library := "", level := 0, parent := "",
     test_name := "", start_time := "", end_time := "", status := "UNKNOWN",
     arguments := [], return_values := [], execution_order := 1 },
   { name := "C", type := "keyword", library := "", level := 1, parent := "P",
     test_name := "", start_time := "", end_time := "", status := "UNKNOWN",
     arguments := [], return_values := [], execution_order := 2 },
   { name := "P", type := "keyword", library := "", level := 0, parent := "",
     test_name := "", start_time := "", end_time := "", status := "UNKNOWN",
     arguments := [], return_values := [], execution_order := 3 },
   { name := "C", type := "keyword", library := "", level := 1, parent := "P",
     test_name := "", start_time := "", end_time := "", status := "UNKNOWN",
     arguments := [], return_values := [], execution_order := 4 }]

/-- C8: counterexample.  In `nestedSuiteTree` the only keyword node
named P is the parent of the only keyword node named C, yet extraction
produces a P record with execution order 3 after a C record with
execution order 2: `findall('.//suite')` returns the nested suite S2 as
well as S1, so the P/C subtree is traversed twice and the second P
record follows the first C record. -/
theorem c8_counterexample :
    extract_keywords_from_root nestedSuiteTree = .ok c8_ks ∧
    ¬ (∀ rp ∈ c8_ks, ∀ rc ∈ c8_ks, rp.name = "P" → rc.name = "C" →
        rp.execution_order < rc.execution_order) :=
  ⟨rfl, by decide⟩

/-- C8 witness: the amended statement at the concrete nested-suite
tree. -/
theorem c8_execution_orders_witness :
    extract_keywords_from_root nestedSuiteTree = .ok c8_ks ∧
    ((∀ i (hi : i < c8_ks.length),
        (c8_ks.get ⟨i, hi⟩).execution_order = i + 1) ∧
     (∀ (e : Element) (level : Nat) (pn tn : String)
         (acc : List KeywordInfo), e.tag = "kw" →
       ∃ r rest, extractKwRec e level pn tn acc = acc ++ r :: rest ∧
         r.execution_order = acc.length + 1 ∧
         ∀ r' ∈ rest, r.execution_order < r'.execution_order)) :=
  ⟨rfl, c8_execution_orders nestedSuiteTree c8_ks rfl⟩

/-! ## Order lemmas for the stable sorts -/

instance : IsTrans KeywordRecommendation recKeyGe where
  trans a b c h1 h2 := by
    unfold recKeyGe at h1 h2 ⊢
    rcases h1 with h1 | ⟨h1e, h1u⟩ <;> rcases h2 with h2 | ⟨h2e, h2u⟩
    · exact Or.inl (h2.trans h1)
    · exact Or.inl (h2e ▸ h1)
    · exact Or.inl (h1e ▸ h2)
    · exact Or.inr ⟨h2e.trans h1e, h2u.trans h1u⟩

instance : IsTotal KeywordRecommendation recKeyGe where
  total a b := by
    unfold recKeyGe
    rcases lt_trichotomy a.confidence b.confidence with h | h | h
    · exact Or.inr (Or.inl h)
    · rcases Nat.le_total a.usage_count b.usage_count with hu | hu
      · exact Or.inr (Or.inr ⟨h, hu⟩)
      · exact Or.inl (Or.inr ⟨h.symm, hu⟩)
    · exact Or.inl (Or.inl h)

/-- The result of the final recommendation sort is ordered by the
`(confidence, usage_count)` key, descending. -/
theorem sortRecs_sorted (l : List KeywordRecommendation) :
    (sortRecs l).Pairwise recKeyGe :=
  List.sorted_insertionSort recKeyGe l

/-- The final recommendation sort ranks confidences descending. -/
theorem sortRecs_confidence_desc (l : List KeywordRecommendation) :
    (sortRecs l).Pairwise (fun a b => b.confidence ≤ a.confidence) := by
  refine (sortRecs_sorted l).imp ?_
  intro a b h
  rcases h with h | ⟨he, _⟩
  · exact le_of_lt h
  · exact le_of_eq he

theorem sortRecs_perm (l : List KeywordRecommendation) :
    (sortRecs l).Perm l :=
  List.perm_insertionSort recKeyGe l

/-- Summing `count / c` over an association list equals the summed
counts divided by `c`. -/
theorem sum_div_cast (l : List (String × Nat)) (c : ℚ) :
    (l.map (fun p => (p.2 : ℚ) / c)).sum = (((l.map (·.2)).sum : Nat) : ℚ) / c := by
  induction l with
  | nil => simp
  | cons a t ih =>
      simp only [List.map_cons, List.sum_cons, ih, Nat.cast_add, add_div]

/-- C2: for a trained keyword with at least one outgoing transition
(every stored count positive) and a limit at least the number of
distinct successors, the direct-transition query returns one candidate
per successor with confidence exactly count / total outgoing count,
ranks candidates by that ratio descending, and the confidences sum to
exactly 1. -/
theorem c2_direct_query (st : AnalyzerState) (k ctx : String) (n : Nat)
    (trans : List (String × Nat))
    (ht : alistGet st.keyword_transitions k = some trans)
    (hne : trans ≠ [])
    (hpos : ∀ p ∈ trans, 0 < p.2)
    (hn : trans.length ≤ n) :
    ((get_recommendations st k ctx n).map
        (fun r => (r.keyword, r.usage_count, r.confidence))).Perm
      (trans.map (fun p =>
        (p.1, p.2, (p.2 : ℚ) / ((((trans.map (·.2)).sum : Nat)) : ℚ)))) ∧
    (get_recommendations st k ctx n).Pairwise
      (fun a b => b.confidence ≤ a.confidence) ∧
    ((get_recommendations st k ctx n).map (fun r => r.confidence)).sum = 1 := by
  have hd : directRecs st k ctx n
      = (mostCommon trans n).map
          (mkDirectRec st ctx ((trans.map (·.2)).sum)) := by
    unfold directRecs
    rw [ht]
  have hmc : mostCommon trans n
      = trans.insertionSort (fun a b => b.2 ≤ a.2) := by
    unfold mostCommon
    apply List.take_of_length_le
    rw [List.length_insertionSort]
    exact hn
  have hlen : (directRecs st k ctx n).length = trans.length := by
    rw [hd, hmc, List.length_map, List.length_insertionSort]
  have hemp : (directRecs st k ctx n).isEmpty = false := by
    cases hq : directRecs st k ctx n with
    | nil => rw [hq] at hlen; exact absurd hlen.symm (by simpa using hne)
    | cons a l => rfl
  have hout : get_recommendations st k ctx n
      = sortRecs (directRecs st k ctx n) := by
    unfold get_recommendations
    simp only [hemp, Bool.false_eq_true, if_false]
    apply List.take_of_length_le
    rw [sortRecs, List.length_insertionSort, hlen]
    exact hn
  have hperm : (get_recommendations st k ctx n).Perm
      (trans.map (mkDirectRec st ctx ((trans.map (·.2)).sum))) := by
    rw [hout, hd, hmc]
    exact (sortRecs_perm _).trans
      ((List.perm_insertionSort _ trans).map
        (mkDirectRec st ctx ((trans.map (·.2)).sum)))
  refine ⟨?_, ?_, ?_⟩
  · have := hperm.map (fun r => (r.keyword, r.usage_count, r.confidence))
    rw [List.map_map] at this
    exact this
  · rw [hout]
    exact sortRecs_confidence_desc _
  · have hsum := (hperm.map (fun r => r.confidence)).sum_eq
    rw [List.map_map] at hsum
    have hrw : (trans.map
        ((fun r => r.confidence) ∘ mkDirectRec st ctx ((trans.map (·.2)).sum)))
        = trans.map (fun p => (p.2 : ℚ) / (((trans.map (·.2)).sum : Nat) : ℚ)) :=
      rfl
    rw [hrw, sum_div_cast] at hsum
    rw [hsum]
    apply div_self
    have hpos2 : 0 < (trans.map (·.2)).sum := by
      cases trans with
      | nil => exact absurd rfl hne
      | cons p t =>
          have hp := hpos p (List.mem_cons_self p t)
          simp only [List.map_cons, List.sum_cons]
          omega
    exact_mod_cast hpos2.ne'

/-- A `filterMap` whose function is an if-some/none is a filter
followed by a map. -/
theorem filterMap_ite_eq (f : String → KeywordRecommendation)
    (p : String → Prop) [DecidablePred p] (l : List String) :
    l.filterMap (fun x => if p x then some (f x) else none)
      = (l.filter (fun x => decide (p x))).map f := by
  induction l with
  | nil => rfl
  | cons a t ih =>
      by_cases h : p a <;> simp [h, ih]

/-- When the keyword has no stored outgoing transitions, the direct
branch is empty. -/
theorem directRecs_empty (st : AnalyzerState) (k ctx : String) (n : Nat)
    (h0 : (alistGet st.keyword_transitions k).getD [] = []) :
    directRecs st k ctx n = [] := by
  unfold directRecs
  cases hq : alistGet st.keyword_transitions k with
  | none => rfl
  | some tr =>
      rw [hq] at h0
      simp only [Option.getD_some] at h0
      subst h0
      simp [mostCommon]

/-- C9: the library-fallback query fires exactly when the direct query
has no candidates and the keyword's library is known.  (i) In that case
every result has confidence exactly 1/10, carries the shared library,
takes its usage count from the frequency table, and is another keyword
of that library; when the limit allows, the results are exactly the
other keywords of the library; and results are ranked by usage count
descending (confidences are all equal).  (ii) With no candidates and an
unknown library the result is empty.  (iii) When the keyword has
outgoing transitions, every result is one of its stored successors —
the fallback never contributes. -/
theorem c9_library_fallback (st : AnalyzerState) (k ctx : String) (n : Nat) :
    ((alistGet st.keyword_transitions k).getD [] = [] →
      ∀ lib, alistGet st.keyword_libraries k = some lib →
        (∀ r ∈ get_recommendations st k ctx n,
            r.confidence = (1 : ℚ) / 10 ∧ r.library = lib ∧
            r.usage_count = counterGet st.keyword_frequencies r.keyword ∧
            r.keyword ∈ (alistGet st.library_keywords lib).getD [] ∧
            r.keyword ≠ k) ∧
        ((((alistGet st.library_keywords lib).getD []).filter
            (fun kw => kw ≠ k)).length ≤ n →
          ((get_recommendations st k ctx n).map (fun r => r.keyword)).Perm
            (((alistGet st.library_keywords lib).getD []).filter
              (fun kw => kw ≠ k))) ∧
        (get_recommendations st k ctx n).Pairwise
          (fun a b => b.usage_count ≤ a.usage_count)) ∧
    ((alistGet st.keyword_transitions k).getD [] = [] →
      alistGet st.keyword_libraries k = none →
      get_recommendations st k ctx n = []) ∧
    (∀ trans, alistGet st.keyword_transitions k = some trans →
      trans ≠ [] →
      ∀ r ∈ get_recommendations st k ctx n,
        r.keyword ∈ trans.map (·.1)) := by
  refine ⟨?_, ?_, ?_⟩
  · intro h0 lib hlib
    have hdir := directRecs_empty st k ctx n h0
    have hfb : libraryFallbackRecs st k ctx
        = (((alistGet st.library_keywords lib).getD []).filter
            (fun kw => kw ≠ k)).map (mkFallbackRec st lib ctx) := by
      unfold libraryFallbackRecs
      rw [hlib]
      exact filterMap_ite_eq _ _ _
    have hout : get_recommendations st k ctx n
        = (sortRecs ((((alistGet st.library_keywords lib).getD []).filter
            (fun kw => kw ≠ k)).map (mkFallbackRec st lib ctx))).take n := by
      unfold get_recommendations
      simp only [hdir, List.isEmpty_nil, if_true, hfb]
    have hmem : ∀ r ∈ get_recommendations st k ctx n,
        ∃ kw, kw ∈ ((alistGet st.library_keywords lib).getD []).filter
            (fun kw => kw ≠ k) ∧ r = mkFallbackRec st lib ctx kw := by
      intro r hr
      rw [hout] at hr
      have hr2 := (List.perm_insertionSort _ _).mem_iff.mp
        ((List.take_sublist _ _).mem hr)
      obtain ⟨kw, hkw, hrkw⟩ := List.mem_map.mp hr2
      exact ⟨kw, hkw, hrkw.symm⟩
    refine ⟨?_, ?_, ?_⟩
    · intro r hr
      obtain ⟨kw, hkw, rfl⟩ := hmem r hr
      refine ⟨rfl, rfl, rfl, ?_, ?_⟩
      · exact List.mem_of_mem_filter hkw
      · have := List.of_mem_filter hkw
        simpa using this
    · intro hlen
      rw [hout]
      rw [List.take_of_length_le]
      · refine ((sortRecs_perm _).map (fun r => r.keyword)).trans ?_
        rw [List.map_map]
        have hcomp : ((fun r : KeywordRecommendation => r.keyword)
            ∘ mkFallbackRec st lib ctx) = id := rfl
        rw [hcomp, List.map_id]
      · rw [sortRecs, List.length_insertionSort, List.length_map]
        exact hlen
    · have hsorted : (get_recommendations st k ctx n).Pairwise recKeyGe := by
        rw [hout]
        exact (sortRecs_sorted _).sublist (List.take_sublist _ _)
      refine hsorted.imp_of_mem ?_
      intro a b ha hb h
      obtain ⟨kwa, _, rfl⟩ := hmem a ha
      obtain ⟨kwb, _, rfl⟩ := hmem b hb
      rcases h with h | ⟨_, hu⟩
      · exact absurd h (lt_irrefl _)
      · exact hu
  · intro h0 hlib
    have hdir := directRecs_empty st k ctx n h0
    have hfb : libraryFallbackRecs st k ctx = [] := by
      unfold libraryFallbackRecs
      rw [hlib]
    unfold get_recommendations
    simp only [hdir, List.isEmpty_nil, if_true, hfb]
    simp [sortRecs]
  · intro trans ht hne r hr
    unfold get_recommendations at hr
    have hd : directRecs st k ctx n
        = (mostCommon trans n).map
            (mkDirectRec st ctx ((trans.map (·.2)).sum)) := by
      unfold directRecs
      rw [ht]
    by_cases hq : (directRecs st k ctx n).isEmpty
    · have hmc : mostCommon trans n = [] := by
        rw [hd] at hq
        cases hmm : mostCommon trans n with
        | nil => rfl
        | cons a l => rw [hmm] at hq; simp at hq
      have hn0 : n = 0 := by
        unfold mostCommon at hmc
        rcases List.take_eq_nil_iff.mp hmc with h | h
        · exact h
        · have := congrArg List.length h
          rw [List.length_insertionSort] at this
          exact absurd (List.length_eq_zero.mp this) hne
      simp only [hq, if_true, hn0, List.take_zero] at hr
      exact absurd hr (List.not_mem_nil r)
    · simp only [hq, if_false, Bool.not_eq_true] at hr
      have hr2 := (List.perm_insertionSort _ _).mem_iff.mp
        ((List.take_sublist _ _).mem hr)
      rw [hd] at hr2
      obtain ⟨p, hp, hrp⟩ := List.mem_map.mp hr2
      have hp2 : p ∈ trans := by
        have := (List.take_sublist _ _).mem hp
        exact (List.perm_insertionSort _ trans).mem_iff.mp this
      rw [← hrp]
      exact List.mem_map_of_mem (·.1) hp2

instance : IsTrans Suggestion suggGe where
  trans a b c h1 h2 := by
    unfold suggGe at h1 h2 ⊢
    rcases h1 with h1 | ⟨h1e, h1u⟩ <;> rcases h2 with h2 | ⟨h2e, h2u⟩
    · exact Or.inl (h2.trans h1)
    · exact Or.inl (h2e ▸ h1)
    · exact Or.inl (h1e ▸ h2)
    · exact Or.inr ⟨h2e.trans h1e, h2u.trans h1u⟩

instance : IsTotal Suggestion suggGe where
  total a b := by
    unfold suggGe
    rcases lt_trichotomy a.frequency b.frequency with h | h | h
    · exact Or.inr (Or.inl h)
    · rcases Nat.le_total a.keyword.length b.keyword.length with hu | hu
      · exact Or.inr (Or.inr ⟨h, hu⟩)
      · exact Or.inl (Or.inr ⟨h.symm, hu⟩)
    · exact Or.inl (Or.inl h)

/-- Everything recorded in a non-skipped autocomplete entry. -/
theorem autocompleteEntry_some (st : AnalyzerState) (pl : String)
    (f : Option String) (q : String × String) (s : Suggestion)
    (h : autocompleteEntry st pl f q = some s) :
    s.keyword = q.1 ∧ s.library = q.2 ∧
    s.frequency = counterGet st.keyword_frequencies q.1 ∧
    s.contexts = (alistGet st.keyword_contexts q.1).getD [] ∧
    strContains (lowerStr q.1) pl = true ∧
    (∀ fl, f = some fl → q.2 = fl) := by
  unfold autocompleteEntry at h
  simp only [] at h
  split at h
  · exact absurd h (by simp)
  · rename_i hskip
    split at h
    · rename_i hsub
      simp only [Option.some.injEq] at h
      subst h
      refine ⟨rfl, rfl, rfl, rfl, hsub, ?_⟩
      intro fl hfl
      subst hfl
      simpa using hskip
    · exact absurd h (by simp)

/-- An entry passing the filter and the substring match is kept. -/
theorem autocompleteEntry_isSome (st : AnalyzerState) (pl : String)
    (f : Option String) (q : String × String)
    (hf : f = none ∨ f = some q.2)
    (hm : strContains (lowerStr q.1) pl = true) :
    ∃ s, autocompleteEntry st pl f q = some s ∧ s.keyword = q.1 := by
  refine ⟨{ keyword := q.1, library := q.2,
            frequency := counterGet st.keyword_frequencies q.1,
            contexts := (alistGet st.keyword_contexts q.1).getD [] }, ?_, rfl⟩
  rcases hf with rfl | rfl
  · simp [autocompleteEntry, hm]
  · simp [autocompleteEntry, hm]

/-- C4 (amended): the autocomplete query returns at most 20 results;
every result case-insensitively contains the partial string as a
substring, respects the library filter, and reports the entry's
library, frequency-table count and stored contexts; results are ranked
by frequency descending with ties broken by LONGER name first (the
`reverse=True` sort inverts both key components, so the spec's
"shorter name first" does not hold — see the counterexample); and
every matching entry appears unless the 20-result cap was reached. -/
theorem c4_autocomplete (st : AnalyzerState) (p : String)
    (f : Option String) :
    (get_autocomplete_suggestions st p f).length ≤ 20 ∧
    (∀ s ∈ get_autocomplete_suggestions st p f,
        strContains (lowerStr s.keyword) (lowerStr p) = true ∧
        (∀ fl, f = some fl → s.library = fl) ∧
        (s.keyword, s.library) ∈ st.keyword_libraries ∧
        s.frequency = counterGet st.keyword_frequencies s.keyword ∧
        s.contexts = (alistGet st.keyword_contexts s.keyword).getD []) ∧
    (get_autocomplete_suggestions st p f).Pairwise
      (fun a b => b.frequency < a.frequency ∨
        (b.frequency = a.frequency ∧
          b.keyword.length ≤ a.keyword.length)) ∧
    (∀ q ∈ st.keyword_libraries,
        (f = none ∨ f = some q.2) →
        strContains (lowerStr q.1) (lowerStr p) = true →
        (∃ s ∈ get_autocomplete_suggestions st p f, s.keyword = q.1) ∨
        (get_autocomplete_suggestions st p f).length = 20) := by
  have hout : get_autocomplete_suggestions st p f
      = ((st.keyword_libraries.filterMap
          (autocompleteEntry st (lowerStr p) f)).insertionSort suggGe).take 20 :=
    rfl
  refine ⟨?_, ?_, ?_, ?_⟩
  · rw [hout]
    exact List.length_take_le _ _
  · intro s hs
    rw [hout] at hs
    have hs2 := (List.perm_insertionSort _ _).mem_iff.mp
      ((List.take_sublist _ _).mem hs)
    obtain ⟨q, hq, hent⟩ := List.mem_filterMap.mp hs2
    obtain ⟨hk, hl, hfreq, hctx, hsub, hfl⟩ :=
      autocompleteEntry_some st (lowerStr p) f q s hent
    rw [hk, hl]
    refine ⟨hsub, ?_, ?_, hfreq, hctx⟩
    · intro fl hfl2
      exact hfl fl hfl2
    · simpa using hq
  · rw [hout]
    refine (((List.sorted_insertionSort suggGe _).sublist
      (List.take_sublist _ _)).imp ?_)
    intro a b h
    exact h
  · intro q hq hf hm
    obtain ⟨s0, hent, hk0⟩ :=
      autocompleteEntry_isSome st (lowerStr p) f q hf hm
    by_cases hlen : (get_autocomplete_suggestions st p f).length = 20
    · exact Or.inr hlen
    · left
      refine ⟨s0, ?_, hk0⟩
      rw [hout]
      have hmemsort : s0 ∈ (st.keyword_libraries.filterMap
          (autocompleteEntry st (lowerStr p) f)).insertionSort suggGe := by
        rw [List.mem_insertionSort]
        exact List.mem_filterMap.mpr ⟨q, hq, hent⟩
      have hle : ((st.keyword_libraries.filterMap
          (autocompleteEntry st (lowerStr p) f)).insertionSort suggGe).length
          ≤ 20 := by
        by_contra hgt
        apply hlen
        rw [hout, List.length_take]
        omega
      rw [List.take_of_length_le hle]
      exact hmemsort

/-- Analyzer state trained on two equal-frequency keywords "ab" and
"abc" of one library. -/
def c4_state : AnalyzerState :=
  analyze_records emptyAnalyzer
    [mkRec "ab" "keyword" "X" 0 "", mkRec "abc" "keyword" "X" 0 ""]

/-- C4: counterexample.  Querying "a" against two keywords of equal
frequency returns the LONGER name "abc" first: the
`sort(key=(frequency, len), reverse=True)` call inverts the length
component as well, so ties are broken by longer name first, not
shorter name first as claimed. -/
theorem c4_counterexample :
    ((get_autocomplete_suggestions c4_state "a" none).map
        (fun s => (s.keyword, s.frequency))) = [("abc", 1), ("ab", 1)] ∧
    ¬ ((get_autocomplete_suggestions c4_state "a" none).Pairwise
        (fun a b => b.frequency < a.frequency ∨
          (b.frequency = a.frequency ∧
            a.keyword.length ≤ b.keyword.length))) := by
  decide

/-- C4 witness: the amended statement applied at the concrete trained
state, with the completeness implication discharged for the matching
entry ("abc", "X"). -/
theorem c4_autocomplete_witness :
    (("abc", "X") ∈ c4_state.keyword_libraries ∧
     strContains (lowerStr "abc") (lowerStr "a") = true) ∧
    ((∃ s ∈ get_autocomplete_suggestions c4_state "a" none,
        s.keyword = "abc") ∨
     (get_autocomplete_suggestions c4_state "a" none).length = 20) :=
  ⟨⟨by decide, by decide⟩,
   (c4_autocomplete c4_state "a" none).2.2.2 ("abc", "X") (by decide)
     (Or.inl rfl) (by decide)⟩

/-! ## Counter correctness -/

theorem counterGet_bump (c : List (String × Nat)) (k j : String) :
    counterGet (counterBump c k) j
      = counterGet c j + (if k = j then 1 else 0) := by
  induction c with
  | nil =>
      by_cases h : k = j <;>
        simp [counterBump, alistModify, counterGet, alistGet, h]
  | cons p t ih =>
      obtain ⟨k', v⟩ := p
      by_cases h : k' = k
      · subst h
        by_cases h2 : k' = j <;>
          simp [counterBump, alistModify, counterGet, alistGet, h2]
      · by_cases h2 : k' = j
        · subst h2
          have : ¬ k = k' := fun hk => h hk.symm
          simp [counterBump, alistModify, counterGet, alistGet, h, this]
        · simp only [counterBump, alistModify, if_neg h, counterGet, alistGet,
            if_neg h2]
          exact ih

theorem counterGet_foldl (ev : List String) :
    ∀ (c : List (String × Nat)) (k : String),
    counterGet (ev.foldl counterBump c) k = counterGet c k + ev.count k := by
  induction ev with
  | nil => intro c k; simp
  | cons a t ih =>
      intro c k
      simp only [List.foldl_cons]
      rw [ih, counterGet_bump, List.count_cons]
      by_cases h : a = k <;> simp [h] <;> omega

theorem counterSum_bump (c : List (String × Nat)) (k : String) :
    ((counterBump c k).map (·.2)).sum = (c.map (·.2)).sum + 1 := by
  induction c with
  | nil => simp [counterBump, alistModify]
  | cons p t ih =>
      obtain ⟨k', v⟩ := p
      by_cases h : k' = k
      · simp [counterBump, alistModify, h]
        omega
      · simp only [counterBump, alistModify, if_neg h, List.map_cons,
          List.sum_cons]
        rw [show alistModify t k 0 (· + 1) = counterBump t k from rfl, ih]
        omega

theorem counterSum_foldl (ev : List String) :
    ∀ (c : List (String × Nat)),
    ((ev.foldl counterBump c).map (·.2)).sum
      = (c.map (·.2)).sum + ev.length := by
  induction ev with
  | nil => intro c; simp
  | cons a t ih =>
      intro c
      simp only [List.foldl_cons]
      rw [ih, counterSum_bump, List.length_cons]
      omega

theorem mem_keys_counterBump (c : List (String × Nat)) (k x : String)
    (h : x ∈ (counterBump c k).map (·.1)) :
    x ∈ c.map (·.1) ∨ x = k := by
  induction c with
  | nil =>
      simp [counterBump, alistModify] at h
      exact Or.inr h
  | cons p t ih =>
      obtain ⟨k', v⟩ := p
      by_cases hk : k' = k
      · subst hk
        left
        simpa [counterBump, alistModify] using h
      · simp only [counterBump, alistModify, if_neg hk, List.map_cons,
          List.mem_cons] at h
        rcases h with h | h
        · exact Or.inl (List.mem_cons.mpr (Or.inl h))
        · rcases ih h with h2 | h2
          · exact Or.inl (List.mem_cons.mpr (Or.inr h2))
          · exact Or.inr h2

theorem keysNodup_counterBump (c : List (String × Nat)) (k : String)
    (h : (c.map (·.1)).Nodup) : ((counterBump c k).map (·.1)).Nodup := by
  induction c with
  | nil => simp [counterBump, alistModify]
  | cons p t ih =>
      obtain ⟨k', v⟩ := p
      simp only [List.map_cons, List.nodup_cons] at h
      by_cases hk : k' = k
      · subst hk
        simpa [counterBump, alistModify] using h
      · simp only [counterBump, alistModify, if_neg hk, List.map_cons,
          List.nodup_cons]
        refine ⟨?_, ih h.2⟩
        intro hmem
        rcases mem_keys_counterBump t k k' hmem with h2 | h2
        · exact h.1 h2
        · exact hk h2

theorem keysNodup_foldl (ev : List String) :
    ∀ (c : List (String × Nat)), (c.map (·.1)).Nodup →
    (((ev.foldl counterBump c).map (·.1))).Nodup := by
  induction ev with
  | nil => intro c h; exact h
  | cons a t ih =>
      intro c h
      exact ih _ (keysNodup_counterBump c a h)

theorem counterGet_of_mem (c : List (String × Nat))
    (hnd : (c.map (·.1)).Nodup) (k : String) (m : Nat)
    (hm : (k, m) ∈ c) : counterGet c k = m := by
  induction c with
  | nil => exact absurd hm (List.not_mem_nil _)
  | cons p t ih =>
      obtain ⟨k', v⟩ := p
      simp only [List.map_cons, List.nodup_cons] at hnd
      rcases List.mem_cons.mp hm with h | h
      · obtain ⟨rfl, rfl⟩ := Prod.mk.injEq .. ▸ h
        · simp [counterGet, alistGet]
      · have hk : ¬ k' = k := by
          intro hkk
          subst hkk
          exact hnd.1 (List.mem_map.mpr ⟨(k', m), h, rfl⟩)
        simp only [counterGet, alistGet, if_neg hk]
        exact ih hnd.2 h

/-- The tally loop of `get_context_recommendations` equals bumping a
fresh counter once per matching sequence that has a successor. -/
theorem fold_tally_eq (kws : List String) (seqs : List (List String)) :
    ∀ (init : List (String × Nat)),
    seqs.foldl (fun counts sequence =>
        match sequence.get? (maxFirstIndex sequence kws + 1) with
        | some next_keyword => counterBump counts next_keyword
        | none => counts) init
      = (seqs.filterMap (fun sequence =>
          sequence.get? (maxFirstIndex sequence kws + 1))).foldl
          counterBump init := by
  induction seqs with
  | nil => intro init; rfl
  | cons sq t ih =>
      intro init
      simp only [List.foldl_cons, List.filterMap_cons]
      cases hq : sq.get? (maxFirstIndex sq kws + 1) with
      | none => rw [ih]
      | some nk =>
          simp only [List.foldl_cons]
          rw [ih]

instance : IsTrans (String × Nat) (fun a b => b.2 ≤ a.2) :=
  ⟨fun _ _ _ h1 h2 => h2.trans h1⟩

instance : IsTotal (String × Nat) (fun a b => b.2 ≤ a.2) :=
  ⟨fun a b => Nat.le_total b.2 a.2⟩

/-- `most_common` output is ordered by count descending. -/
theorem mostCommon_sorted (c : List (String × Nat)) (n : Nat) :
    (mostCommon c n).Pairwise (fun a b => b.2 ≤ a.2) :=
  (List.sorted_insertionSort _ c).sublist (List.take_sublist _ _)

/-- Entries surviving `most_common` come from the counter. -/
theorem mostCommon_subset (c : List (String × Nat)) (n : Nat) :
    ∀ p ∈ mostCommon c n, p ∈ c := by
  intro p hp
  exact (List.perm_insertionSort _ c).mem_iff.mp
    ((List.take_sublist _ _).mem hp)

/-- C7: the context query over a non-empty keyword list returns the
empty list whenever no stored sequence contains every given keyword;
otherwise each result's tally counts exactly the matching sequences
whose element after the maximum first-occurrence index of the given
keywords equals that result (the successor list is the filterMap of
those successors), its confidence is tally / total tallies, and
results are ranked by tally descending. -/
theorem c7_context_query (st : AnalyzerState) (kws : List String) (n : Nat)
    (hk : kws ≠ []) :
    ((st.keyword_sequences.filter
        (fun sequence => kws.all (fun kw => sequence.contains kw))) = [] →
      get_context_recommendations st kws n = []) ∧
    (∀ r ∈ get_context_recommendations st kws n,
      r.usage_count
          = ((st.keyword_sequences.filter
              (fun sequence => kws.all (fun kw => sequence.contains kw))).filterMap
              (fun sequence =>
                sequence.get? (maxFirstIndex sequence kws + 1))).count
              r.keyword ∧
      r.confidence = (r.usage_count : ℚ) /
          ((((st.keyword_sequences.filter
              (fun sequence => kws.all (fun kw => sequence.contains kw))).filterMap
              (fun sequence =>
                sequence.get? (maxFirstIndex sequence kws + 1))).length : Nat) : ℚ)) ∧
    (get_context_recommendations st kws n).Pairwise
      (fun a b => b.usage_count ≤ a.usage_count) := by
  have hke : kws.isEmpty = false := by
    cases kws
    · exact absurd rfl hk
    · rfl
  refine ⟨?_, ?_, ?_⟩
  · intro hMe
    unfold get_context_recommendations
    simp only [hke, Bool.false_eq_true, if_false, hMe, List.isEmpty_nil,
      if_true]
  · intro r hr
    unfold get_context_recommendations at hr
    simp only [hke, Bool.false_eq_true, if_false] at hr
    split at hr
    · exact absurd hr (List.not_mem_nil r)
    · rw [fold_tally_eq] at hr
      obtain ⟨p, hp, hrp⟩ := List.mem_map.mp hr
      have hpc := mostCommon_subset _ _ p hp
      have hnd := keysNodup_foldl
        ((st.keyword_sequences.filter
            (fun sequence => kws.all (fun kw => sequence.contains kw))).filterMap
          (fun sequence => sequence.get? (maxFirstIndex sequence kws + 1)))
        [] (by simp)
      have hcg := counterGet_of_mem _ hnd p.1 p.2 hpc
      have hcount := counterGet_foldl
        ((st.keyword_sequences.filter
            (fun sequence => kws.all (fun kw => sequence.contains kw))).filterMap
          (fun sequence => sequence.get? (maxFirstIndex sequence kws + 1)))
        [] p.1
      have hsum := counterSum_foldl
        ((st.keyword_sequences.filter
            (fun sequence => kws.all (fun kw => sequence.contains kw))).filterMap
          (fun sequence => sequence.get? (maxFirstIndex sequence kws + 1)))
        []
      have hpcount : p.2 = ((st.keyword_sequences.filter
          (fun sequence => kws.all (fun kw => sequence.contains kw))).filterMap
          (fun sequence =>
            sequence.get? (maxFirstIndex sequence kws + 1))).count p.1 := by
        rw [← hcg, hcount]
        simp [counterGet, alistGet]
      subst hrp
      refine ⟨hpcount, ?_⟩
      show (p.2 : ℚ) / _ = (p.2 : ℚ) / _
      simp only [hsum]
      norm_num
  · unfold get_context_recommendations
    simp only [hke, Bool.false_eq_true, if_false]
    split
    · exact List.Pairwise.nil
    · refine List.Pairwise.map _ ?_ (mostCommon_sorted _ _)
      intro a b hab
      exact hab

/-- Analyzer state after one log in which X is followed by Y three
times and by Z once (sequence X, Y, X, Y, X, Y, X, Z). -/
def c2_state : AnalyzerState :=
  analyze_records emptyAnalyzer
    [mkRec "X" "keyword" "" 0 "", mkRec "Y" "keyword" "" 0 "",
     mkRec "X" "keyword" "" 0 "", mkRec "Y" "keyword" "" 0 "",
     mkRec "X" "keyword" "" 0 "", mkRec "Y" "keyword" "" 0 "",
     mkRec "X" "keyword" "" 0 "", mkRec "Z" "keyword" "" 0 ""]

/-- C2 witness: the direct query at keyword X of the trained state,
whose stored successors are Y (count 3) and Z (count 1). -/
theorem c2_direct_query_witness :
    (alistGet c2_state.keyword_transitions "X" = some [("Y", 3), ("Z", 1)] ∧
     ([("Y", 3), ("Z", 1)] : List (String × Nat)) ≠ [] ∧
     (∀ p ∈ ([("Y", 3), ("Z", 1)] : List (String × Nat)), 0 < p.2) ∧
     ([("Y", 3), ("Z", 1)] : List (String × Nat)).length ≤ 10) ∧
    (((get_recommendations c2_state "X" "" 10).map
        (fun r => (r.keyword, r.usage_count, r.confidence))).Perm
      (([("Y", 3), ("Z", 1)] : List (String × Nat)).map (fun p =>
        (p.1, p.2, (p.2 : ℚ) /
          ((((([("Y", 3), ("Z", 1)] : List (String × Nat)).map (·.2)).sum :
            Nat)) : ℚ)))) ∧
     (get_recommendations c2_state "X" "" 10).Pairwise
       (fun a b => b.confidence ≤ a.confidence) ∧
     ((get_recommendations c2_state "X" "" 10).map
        (fun r => r.confidence)).sum = 1) :=
  ⟨⟨rfl, by decide, by decide, by decide⟩,
   c2_direct_query c2_state "X" "" 10 [("Y", 3), ("Z", 1)]
     rfl (by decide) (by decide) (by decide)⟩

/-- C9 witness: the fallback at keyword Z of the trained state (no
outgoing transitions; library BuiltIn shared with X and Y). -/
theorem c9_library_fallback_witness :
    ((alistGet c2_state.keyword_transitions "Z").getD [] = [] ∧
     alistGet c2_state.keyword_libraries "Z" = some "BuiltIn") ∧
    ((∀ r ∈ get_recommendations c2_state "Z" "" 10,
        r.confidence = (1 : ℚ) / 10 ∧ r.library = "BuiltIn" ∧
        r.usage_count = counterGet c2_state.keyword_frequencies r.keyword ∧
        r.keyword ∈ (alistGet c2_state.library_keywords "BuiltIn").getD [] ∧
        r.keyword ≠ "Z") ∧
     ((((alistGet c2_state.library_keywords "BuiltIn").getD []).filter
         (fun kw => kw ≠ "Z")).length ≤ 10 →
       ((get_recommendations c2_state "Z" "" 10).map
          (fun r => r.keyword)).Perm
         (((alistGet c2_state.library_keywords "BuiltIn").getD []).filter
           (fun kw => kw ≠ "Z"))) ∧
     (get_recommendations c2_state "Z" "" 10).Pairwise
       (fun a b => b.usage_count ≤ a.usage_count)) :=
  ⟨⟨rfl, rfl⟩, (c9_library_fallback c2_state "Z" "" 10).1 rfl "BuiltIn" rfl⟩

/-- C7 witness: the context query for X and Y over the trained state
(one stored sequence contains both). -/
theorem c7_context_query_witness :
    (["X", "Y"] : List String) ≠ [] ∧
    (((c2_state.keyword_sequences.filter
        (fun sequence =>
          (["X", "Y"] : List String).all (fun kw => sequence.contains kw)))
        = [] →
      get_context_recommendations c2_state ["X", "Y"] 10 = []) ∧
    (∀ r ∈ get_context_recommendations c2_state ["X", "Y"] 10,
      r.usage_count
          = ((c2_state.keyword_sequences.filter
              (fun sequence =>
                (["X", "Y"] : List String).all
                  (fun kw => sequence.contains kw))).filterMap
              (fun sequence =>
                sequence.get?
                  (maxFirstIndex sequence ["X", "Y"] + 1))).count r.keyword ∧
      r.confidence = (r.usage_count : ℚ) /
          ((((c2_state.keyword_sequences.filter
              (fun sequence =>
                (["X", "Y"] : List String).all
                  (fun kw => sequence.contains kw))).filterMap
              (fun sequence =>
                sequence.get?
                  (maxFirstIndex sequence ["X", "Y"] + 1))).length : Nat) : ℚ)) ∧
    (get_context_recommendations c2_state ["X", "Y"] 10).Pairwise
      (fun a b => b.usage_count ≤ a.usage_count)) :=
  ⟨by decide, c7_context_query c2_state ["X", "Y"] 10 (by decide)⟩

end RobotRec
